import Mathlib

/-!
Shallow embedding of the `mymandarin` progress-tracking and review-scheduling
engine (`src/hooks/useVocabulary.ts`, `src/types/vocabulary.ts`).

Modelling conventions:
* ISO timestamp strings and `YYYY-MM-DD` day strings are modelled as `Nat`
  values counting days; JavaScript `Date` arithmetic (adding `interval` days,
  millisecond differences divided by a day) becomes `Nat` addition and
  subtraction at day granularity.  Lexicographic order on `YYYY-MM-DD`
  strings coincides with the numeric order of the day numbers, so the
  source's string `sort()` is modelled as a numeric sort.
* A JavaScript object used as a string-keyed map (`UserProgress`) is modelled
  as an association list with unique keys; `prev[k]` is `findRec`, the spread
  `{...prev, [k]: v}` is `setKey` (replace in place when the key exists,
  append otherwise, matching JS key-ordering semantics).
* The empty string sentinel accepted by `isDueForReview` is modelled by
  `Option Nat` with `none` for the empty string.
* JavaScript number arithmetic on the values appearing here (small integer
  counters, day counts) is exact, and `Math.round((c / t) * 100)` is modelled
  as exact rational rounding half away from zero on non-negative values,
  `(2 * (100 * c) + t) / (2 * t)` in `Nat` division.
-/

namespace MyMandarin

/-- Quiz mode tags (`QuizMode` in `vocabulary.ts`). -/
inductive QuizMode where
  | characterToMeaning
  | meaningToCharacter
  | pinyinToCharacter
  | flashcard
deriving DecidableEq, Repr

/-- Quiz difficulty tags (`QuizDifficulty` in `vocabulary.ts`). -/
inductive QuizDifficulty where
  | easy
  | medium
  | hard
deriving DecidableEq, Repr

/-- A catalog word (`Word` in `vocabulary.ts`). -/
structure Word where
  pinyin : String
  characters : String
  meaning : String
  notes : Option String
  components : Option (List String)
deriving DecidableEq, Repr

/-- A word together with its category (`WordWithCategory`). -/
structure WordWithCategory extends Word where
  category : String
deriving DecidableEq, Repr

/-- The static catalog: category name to word list (`VocabularyData`). -/
def VocabularyData := List (String × List Word)

/-- One review event record (`ReviewRecord` in `vocabulary.ts`). -/
structure ReviewRecord where
  date : Nat
  correct : Bool
  mode : QuizMode
  responseTime : Option Nat
deriving DecidableEq, Repr

/-- Per-word learning state (`Progress` in `vocabulary.ts`).  `srsLevel` is
`0 | 1 | ... | 5` in the source type; here a `Nat`. -/
structure Progress where
  wordId : String
  correctCount : Nat
  incorrectCount : Nat
  lastReviewed : Nat
  nextReview : Option Nat
  srsLevel : Nat
  streak : Nat
  history : List ReviewRecord
deriving DecidableEq, Repr

/-- A completed quiz session (`QuizSession` in `vocabulary.ts`). -/
structure QuizSession where
  id : String
  date : Nat
  mode : QuizMode
  difficulty : QuizDifficulty
  category : String
  totalQuestions : Nat
  correctAnswers : Nat
  incorrectAnswers : Nat
  firstAttemptCorrect : Nat
  secondAttemptCorrect : Nat
  duration : Nat
  wordsReviewed : List String
deriving DecidableEq, Repr

/-- The progress map (`UserProgress`), a string-keyed JS object. -/
def UserProgress := List (String × Progress)

/-- Aggregate user statistics (`UserStats` in `vocabulary.ts`).
`lastStudyDate` is the empty string initially; `none` models that. -/
structure UserStats where
  quizHistory : List QuizSession
  totalReviews : Nat
  currentStreak : Nat
  longestStreak : Nat
  lastStudyDate : Option Nat
  studyDays : List Nat
deriving DecidableEq, Repr

/-- Per-level SRS metadata (one entry of `SRS_LEVELS`). -/
structure SRSLevelInfo where
  name : String
  interval : Nat
  color : String
deriving DecidableEq, Repr

/-- The `SRS_LEVELS` table of `vocabulary.ts`.  The source type `SRSLevel`
confines indices to `0..5`; out-of-range indices never occur and are mapped
to the level-0 entry. -/
def SRS_LEVELS : Nat → SRSLevelInfo
  | 0 => { name := "New", interval := 0, color := "#6b7280" }
  | 1 => { name := "Learning", interval := 1, color := "#ef4444" }
  | 2 => { name := "Familiar", interval := 3, color := "#f59e0b" }
  | 3 => { name := "Practiced", interval := 7, color := "#eab308" }
  | 4 => { name := "Known", interval := 14, color := "#22c55e" }
  | 5 => { name := "Mastered", interval := 30, color := "#6366f1" }
  | _ => { name := "New", interval := 0, color := "#6b7280" }

/-- `getNextReviewDate`: current time plus the level's interval in days. -/
def getNextReviewDate (srsLevel : Nat) (now : Nat) : Nat :=
  now + (SRS_LEVELS srsLevel).interval

/-- `isDueForReview`: the empty string (`none`) is due; otherwise due when
the stored date is not after now. -/
def isDueForReview (nextReview : Option Nat) (now : Nat) : Bool :=
  match nextReview with
  | none => true
  | some t => decide (t ≤ now)

/-- `defaultStats` of `useVocabulary.ts`. -/
def defaultStats : UserStats :=
  { quizHistory := []
    totalReviews := 0
    currentStreak := 0
    longestStreak := 0
    lastStudyDate := none
    studyDays := [] }

/-- JS object lookup `prev[pinyin]` on the progress map. -/
def findRec : UserProgress → String → Option Progress
  | [], _ => none
  | (k, v) :: rest, w => if k = w then some v else findRec rest w

/-- JS object spread update `{...prev, [k]: v}`: replace in place when the
key exists, append at the end otherwise. -/
def setKey : UserProgress → String → Progress → UserProgress
  | [], k, v => [(k, v)]
  | (k', v') :: rest, k, v =>
      if k' = k then (k, v) :: rest else (k', v') :: setKey rest k v

/-- `getAllWords`: flatten the catalog, attaching each word's category. -/
def getAllWords (data : VocabularyData) : List WordWithCategory :=
  data.flatMap fun cw => cw.2.map fun w => { toWord := w, category := cw.1 }

/-- `getWordsForReview`: words with no record, or whose `nextReview` has
arrived, are due. -/
def getWordsForReview (data : VocabularyData) (progress : UserProgress)
    (now : Nat) : List WordWithCategory :=
  (getAllWords data).filter fun word =>
    match findRec progress word.pinyin with
    | none => true
    | some p => isDueForReview p.nextReview now

/-- `getWordsBySRSLevel`: for level 0 the words with no record; otherwise
the words whose record's `srsLevel` equals the level. -/
def getWordsBySRSLevel (data : VocabularyData) (progress : UserProgress)
    (level : Nat) : List WordWithCategory :=
  (getAllWords data).filter fun word =>
    if level = 0 then (findRec progress word.pinyin).isNone
    else
      match findRec progress word.pinyin with
      | some p => p.srsLevel == level
      | none => false

/-- The state-update function inside `updateProgress` of `useVocabulary.ts`
(the body of `setProgress`), with the current time a parameter. -/
def updateProgress (prev : UserProgress) (pinyin : String) (correct : Bool)
    (mode : QuizMode) (responseTime : Option Nat) (now : Nat) : UserProgress :=
  let reviewRecord : ReviewRecord :=
    { date := now, correct := correct, mode := mode, responseTime := responseTime }
  match findRec prev pinyin with
  | none =>
      setKey prev pinyin
        { wordId := pinyin
          correctCount := if correct then 1 else 0
          incorrectCount := if correct then 0 else 1
          lastReviewed := now
          nextReview := some (getNextReviewDate (if correct then 1 else 0) now)
          srsLevel := if correct then 1 else 0
          streak := if correct then 1 else 0
          history := [reviewRecord] }
  | some existing =>
      let newLevel : Nat :=
        if correct then min 5 (existing.srsLevel + 1)
        else max 1 (existing.srsLevel - 2)
      let newStreak : Nat := if correct then existing.streak + 1 else 0
      setKey prev pinyin
        { existing with
          correctCount :=
            if correct then existing.correctCount + 1 else existing.correctCount
          incorrectCount :=
            if correct then existing.incorrectCount else existing.incorrectCount + 1
          lastReviewed := now
          nextReview := some (getNextReviewDate newLevel now)
          srsLevel := newLevel
          streak := newStreak
          history := (reviewRecord :: existing.history).take 10 }

/-- JS `array.slice(-n)`: the last `n` elements. -/
def lastN (n : Nat) (l : List Nat) : List Nat :=
  l.drop (l.length - n)

/-- Insertion into a descending-sorted list of day numbers. -/
def insertDesc (x : Nat) : List Nat → List Nat
  | [] => [x]
  | y :: ys => if y ≤ x then x :: y :: ys else y :: insertDesc x ys

/-- `[...studyDays].sort().reverse()` of the source: the study-day strings
sorted descending (lexicographic on ISO dates = numeric on day numbers). -/
def sortDesc (l : List Nat) : List Nat :=
  l.foldr insertDesc []

/-- The source's streak walk over the tail of the descending list: count
adjacent pairs whose day difference is exactly 1, stopping at the first
gap. -/
def streakCount : Nat → List Nat → Nat
  | _, [] => 0
  | prevDay, currDay :: rest =>
      if prevDay - currDay = 1 then 1 + streakCount currDay rest else 0

/-- The `currentStreak` loop of `updateDailyStats`: start at 1, extend while
adjacent sorted days differ by exactly 1. -/
def currentStreakOf : List Nat → Nat
  | [] => 1
  | d :: rest => 1 + streakCount d rest

/-- The state-update function inside `updateDailyStats` (the body of
`setStats`), with today's date a parameter. -/
def updateDailyStats (prev : UserStats) (today : Nat) : UserStats :=
  let studyDays :=
    if prev.studyDays.contains today then prev.studyDays
    else lastN 365 (prev.studyDays ++ [today])
  let currentStreak := currentStreakOf (sortDesc studyDays)
  { prev with
    totalReviews := prev.totalReviews + 1
    currentStreak := currentStreak
    longestStreak := max prev.longestStreak currentStreak
    lastStudyDate := some today
    studyDays := studyDays }

/-- Exact-rational model of `Math.round((numer / denom) * 100)`-style JS
rounding: round half away from zero on non-negative rationals,
`floor (numer / denom + 1 / 2)`. -/
def jsRound (numer denom : Nat) : Nat :=
  (2 * numer + denom) / (2 * denom)

/-- The snapshot returned by `getStatistics` (before spreading in the raw
`UserStats` fields, which are merged verbatim). -/
structure Statistics where
  totalWords : Nat
  levelCounts : Nat → Nat
  masteredCount : Nat
  learningCount : Nat
  newCount : Nat
  accuracy : Nat
  dueToday : Nat
  quizHistory : List QuizSession
  totalReviews : Nat
  currentStreak : Nat
  longestStreak : Nat
  lastStudyDate : Option Nat

/-- `getStatistics` of `useVocabulary.ts`.  The per-word histogram loop is
modelled as a count for each level; the accuracy loop over
`Object.values(progress)` as sums over the map's entries. -/
def getStatistics (data : VocabularyData) (progress : UserProgress)
    (stats : UserStats) (now : Nat) : Statistics :=
  let allWords := getAllWords data
  let levelCounts : Nat → Nat := fun level =>
    allWords.countP fun word =>
      (match findRec progress word.pinyin with
       | some p => p.srsLevel
       | none => 0) == level
  let recentTotal := (progress.map fun kv => kv.2.history.length).sum
  let recentCorrect :=
    (progress.map fun kv => kv.2.history.countP fun h => h.correct).sum
  let accuracy :=
    if 0 < recentTotal then jsRound (recentCorrect * 100) recentTotal else 0
  { totalWords := allWords.length
    levelCounts := levelCounts
    masteredCount := levelCounts 4 + levelCounts 5
    learningCount := levelCounts 1 + levelCounts 2
    newCount := levelCounts 0
    accuracy := accuracy
    dueToday := (getWordsForReview data progress now).length
    quizHistory := stats.quizHistory
    totalReviews := stats.totalReviews
    currentStreak := stats.currentStreak
    longestStreak := stats.longestStreak
    lastStudyDate := stats.lastStudyDate }

/-- Engine state as seen across operations: the two in-memory structures and
the two durable blobs of the Persistence Adapter (localStorage keys
`mandarin-progress` and `mandarin-stats`); `none` models an absent key. -/
structure EngineState where
  progress : UserProgress
  stats : UserStats
  storedProgress : Option UserProgress
  storedStats : Option UserStats

/-- `resetProgress` of `useVocabulary.ts`: empty map, default stats, both
localStorage keys removed (removal of an absent key is a no-op). -/
def resetProgress (_s : EngineState) : EngineState :=
  { progress := []
    stats := defaultStats
    storedProgress := none
    storedStats := none }

/-- One review event: the arguments of a `updateProgress` call together with
the clock value at the call. -/
structure ReviewOp where
  word : String
  correct : Bool
  mode : QuizMode
  responseTime : Option Nat
  now : Nat
deriving DecidableEq, Repr

/-- Apply one review event to the progress map. -/
def applyReview (m : UserProgress) (o : ReviewOp) : UserProgress :=
  updateProgress m o.word o.correct o.mode o.responseTime o.now

/-- Apply a sequence of review events in order, starting from `m`. -/
def applyReviews (ops : List ReviewOp) (m : UserProgress) : UserProgress :=
  ops.foldl applyReview m

/-- The `ReviewRecord` produced by a review event. -/
def mkRecord (o : ReviewOp) : ReviewRecord :=
  { date := o.now, correct := o.correct, mode := o.mode,
    responseTime := o.responseTime }

/-- Every `ReviewRecord` in every `Progress` record's history, the
population the spec's accuracy is computed over (§4.5). -/
def allHistoryRecords (m : UserProgress) : List ReviewRecord :=
  (m.map fun kv => kv.2).flatMap fun p => p.history

/-- Spec-side count (§4.5): `totalHistoryEntries`. -/
def specTotalHistoryEntries (m : UserProgress) : Nat :=
  (allHistoryRecords m).length

/-- Spec-side count (§4.5): `correctHistoryEntries`. -/
def specCorrectHistoryEntries (m : UserProgress) : Nat :=
  ((allHistoryRecords m).filter fun h => h.correct).length

/-- The spec's accuracy formula (§4.5), stated in its own words:
`round(100 * correctHistoryEntries / totalHistoryEntries)`, and `0` when no
history exists anywhere. -/
def specAccuracy (m : UserProgress) : Nat :=
  if specTotalHistoryEntries m = 0 then 0
  else jsRound (100 * specCorrectHistoryEntries m) (specTotalHistoryEntries m)

theorem findRec_setKey_self (m : UserProgress) (k : String) (v : Progress) :
    findRec (setKey m k v) k = some v := by
  induction m with
  | nil => simp [setKey, findRec]
  | cons kv rest ih =>
      by_cases h : kv.1 = k
      · simp [setKey, h, findRec]
      · simp [setKey, h, findRec, ih]

theorem findRec_setKey_ne (m : UserProgress) (k : String) (v : Progress)
    (w : String) (h : w ≠ k) : findRec (setKey m k v) w = findRec m w := by
  have h' : ¬k = w := fun hh => h hh.symm
  induction m with
  | nil => simp [setKey, findRec, h']
  | cons kv rest ih =>
      by_cases hk : kv.1 = k
      · subst hk
        simp [setKey, findRec, h']
      · simp [setKey, hk, findRec, ih]

theorem findRec_updateProgress_ne (m : UserProgress) (w : String) (c : Bool)
    (mode : QuizMode) (rt : Option Nat) (now : Nat) (w' : String)
    (h : w' ≠ w) :
    findRec (updateProgress m w c mode rt now) w' = findRec m w' := by
  cases hrec : findRec m w with
  | none =>
      simp only [updateProgress, hrec]
      exact findRec_setKey_ne _ _ _ _ h
  | some ex =>
      simp only [updateProgress, hrec]
      exact findRec_setKey_ne _ _ _ _ h

/-- The record-level invariant: `srsLevel` at most 5 and history capped
at 10. -/
def RecordBounded (p : Progress) : Prop :=
  p.srsLevel ≤ 5 ∧ p.history.length ≤ 10

/-- The map-level invariant: every stored record is bounded. -/
def StateBounded (m : UserProgress) : Prop :=
  ∀ w p, findRec m w = some p → RecordBounded p

theorem stateBounded_nil : StateBounded [] := by
  intro w p h
  simp [findRec] at h

theorem stateBounded_updateProgress (m : UserProgress) (w : String) (c : Bool)
    (mode : QuizMode) (rt : Option Nat) (now : Nat) (h : StateBounded m) :
    StateBounded (updateProgress m w c mode rt now) := by
  intro w' p' hp'
  by_cases hw : w' = w
  · subst hw
    cases hrec : findRec m w' with
    | none =>
        simp only [updateProgress, hrec, findRec_setKey_self,
          Option.some.injEq] at hp'
        subst hp'
        constructor
        · cases c <;> simp
        · simp
    | some ex =>
        have hb := h w' ex hrec
        simp only [updateProgress, hrec, findRec_setKey_self,
          Option.some.injEq] at hp'
        subst hp'
        constructor
        · cases c with
          | true =>
              simp only [if_pos rfl]
              exact min_le_left 5 (ex.srsLevel + 1)
          | false =>
              simp only [RecordBounded] at hb ⊢
              simp only [if_neg Bool.false_ne_true]
              exact max_le (by omega) (by omega)
        · simp only [List.length_take]
          exact min_le_left 10 _
  · rw [findRec_updateProgress_ne m w c mode rt now w' hw] at hp'
    exact h w' p' hp'

theorem stateBounded_applyReviews (ops : List ReviewOp) (m : UserProgress)
    (h : StateBounded m) : StateBounded (applyReviews ops m) := by
  induction ops generalizing m with
  | nil => exact h
  | cons o rest ih =>
      exact ih (updateProgress m o.word o.correct o.mode o.responseTime o.now)
        (stateBounded_updateProgress m o.word o.correct o.mode o.responseTime
          o.now h)

/-- The history a word starts from in a state: its record's history, or `[]`
when it has no record. -/
def histSeed (m : UserProgress) (w : String) : List ReviewRecord :=
  match findRec m w with
  | some p => p.history
  | none => []

theorem take_append_take {α : Type} (n : Nat) (l s : List α) :
    List.take n (l ++ List.take n s) = List.take n (l ++ s) := by
  rw [List.take_append_eq_append_take, List.take_append_eq_append_take,
    List.take_take]
  rw [Nat.min_eq_left (Nat.sub_le n l.length)]

theorem findRec_applyReview_self (m : UserProgress) (o : ReviewOp) :
    ∃ q, findRec (applyReview m o) o.word = some q ∧
      q.history = List.take 10 (mkRecord o :: histSeed m o.word) := by
  unfold applyReview updateProgress histSeed
  cases hrec : findRec m o.word with
  | none =>
      simp only [hrec]
      exact ⟨_, findRec_setKey_self _ _ _, rfl⟩
  | some ex =>
      simp only [hrec]
      exact ⟨_, findRec_setKey_self _ _ _, rfl⟩

theorem histSeed_applyReview (m : UserProgress) (o : ReviewOp) :
    histSeed (applyReview m o) o.word =
      List.take 10 (mkRecord o :: histSeed m o.word) := by
  obtain ⟨q, hq, hhist⟩ := findRec_applyReview_self m o
  rw [histSeed, hq]
  exact hhist

theorem history_run (ops : List ReviewOp) (o : ReviewOp) (w : String)
    (m : UserProgress) (hw : ∀ o' ∈ o :: ops, o'.word = w) :
    ∃ q, findRec (applyReviews (o :: ops) m) w = some q ∧
      q.history =
        List.take 10 (((o :: ops).map mkRecord).reverse ++ histSeed m w) := by
  induction ops generalizing o m with
  | nil =>
      have ho : o.word = w := hw o (by simp)
      subst ho
      obtain ⟨q, hq, hhist⟩ := findRec_applyReview_self m o
      refine ⟨q, ?_, ?_⟩
      · simp only [applyReviews, List.foldl_cons, List.foldl_nil]
        exact hq
      · simpa using hhist
  | cons o2 rest ih =>
      have ho : o.word = w := hw o (by simp)
      subst ho
      have hw2 : ∀ o' ∈ o2 :: rest, o'.word = o.word := by
        intro o' ho'
        exact hw o' (by simp [ho'])
      obtain ⟨q, hq, hhist⟩ := ih o2 (applyReview m o) hw2
      refine ⟨q, ?_, ?_⟩
      · simpa [applyReviews] using hq
      · rw [hhist, histSeed_applyReview, take_append_take]
        simp [List.append_assoc]

/-- A concrete `Progress` record used by the example witnesses: the record
produced by a first correct review of `"a"` at time 0. -/
def exProgA : Progress :=
  { wordId := "a", correctCount := 1, incorrectCount := 0, lastReviewed := 0,
    nextReview := some 1, srsLevel := 1, streak := 1,
    history := [{ date := 0, correct := true, mode := .flashcard,
                  responseTime := none }] }

/-- A concrete one-record progress map used by the example witnesses. -/
def exMapA : UserProgress := [("a", exProgA)]

/-- C1: on a word that already has a Progress record, `updateProgress` with a
correct outcome sets `srsLevel` to `min 5 (level + 1)` and increments the
per-word streak; with an incorrect outcome it sets `srsLevel` to
`max 1 (level - 2)` and resets the streak to 0; in both cases `nextReview`
is now plus the new level's interval, the interval table being
`{0:0, 1:1, 2:3, 3:7, 4:14, 5:30}`. -/
theorem review_transition_existing (m : UserProgress) (w : String) (c : Bool)
    (mode : QuizMode) (rt : Option Nat) (now : Nat) (ex : Progress)
    (hex : findRec m w = some ex) :
    ∃ p, findRec (updateProgress m w c mode rt now) w = some p ∧
      p.srsLevel = (if c then min 5 (ex.srsLevel + 1) else max 1 (ex.srsLevel - 2)) ∧
      p.streak = (if c then ex.streak + 1 else 0) ∧
      p.nextReview = some (now + (SRS_LEVELS p.srsLevel).interval) ∧
      (SRS_LEVELS 0).interval = 0 ∧ (SRS_LEVELS 1).interval = 1 ∧
      (SRS_LEVELS 2).interval = 3 ∧ (SRS_LEVELS 3).interval = 7 ∧
      (SRS_LEVELS 4).interval = 14 ∧ (SRS_LEVELS 5).interval = 30 := by
  simp only [updateProgress, hex]
  exact ⟨_, findRec_setKey_self _ _ _, rfl, rfl, rfl, rfl, rfl, rfl, rfl, rfl,
    rfl⟩

/-- Witness for C1 at a concrete input: an incorrect review of `"a"`
(record at level 1) at time 5. -/
theorem review_transition_existing_witness :
    findRec exMapA "a" = some exProgA ∧
    (∃ p, findRec (updateProgress exMapA "a" false .flashcard none 5) "a" = some p ∧
      p.srsLevel = (if false then min 5 (exProgA.srsLevel + 1)
                    else max 1 (exProgA.srsLevel - 2)) ∧
      p.streak = (if false then exProgA.streak + 1 else 0) ∧
      p.nextReview = some (5 + (SRS_LEVELS p.srsLevel).interval) ∧
      (SRS_LEVELS 0).interval = 0 ∧ (SRS_LEVELS 1).interval = 1 ∧
      (SRS_LEVELS 2).interval = 3 ∧ (SRS_LEVELS 3).interval = 7 ∧
      (SRS_LEVELS 4).interval = 14 ∧ (SRS_LEVELS 5).interval = 30) :=
  ⟨by decide, review_transition_existing exMapA "a" false .flashcard none 5
    exProgA (by decide)⟩

/-- C7: on a word key with no existing Progress record (any string key is
accepted; `updateProgress` never consults the catalog), `updateProgress`
creates a record with `srsLevel = if correct then 1 else 0`, counters 1/0 or
0/1, `streak = if correct then 1 else 0`, and the singleton history holding
the new `ReviewRecord`. -/
theorem first_review_creates_record (m : UserProgress) (w : String) (c : Bool)
    (mode : QuizMode) (rt : Option Nat) (now : Nat)
    (habs : findRec m w = none) :
    ∃ p, findRec (updateProgress m w c mode rt now) w = some p ∧
      p.srsLevel = (if c then 1 else 0) ∧
      p.correctCount = (if c then 1 else 0) ∧
      p.incorrectCount = (if c then 0 else 1) ∧
      p.streak = (if c then 1 else 0) ∧
      p.history = [{ date := now, correct := c, mode := mode,
                     responseTime := rt }] := by
  simp only [updateProgress, habs]
  exact ⟨_, findRec_setKey_self _ _ _, rfl, rfl, rfl, rfl, rfl⟩

/-- Witness for C7 at a concrete input: a key absent from the map (and from
any catalog), reviewed correctly at time 2. -/
theorem first_review_creates_record_witness :
    findRec exMapA "zz" = none ∧
    (∃ p, findRec (updateProgress exMapA "zz" true .characterToMeaning
        (some 300) 2) "zz" = some p ∧
      p.srsLevel = (if true then 1 else 0) ∧
      p.correctCount = (if true then 1 else 0) ∧
      p.incorrectCount = (if true then 0 else 1) ∧
      p.streak = (if true then 1 else 0) ∧
      p.history = [{ date := 2, correct := true, mode := .characterToMeaning,
                     responseTime := some 300 }]) :=
  ⟨by decide, first_review_creates_record exMapA "zz" true .characterToMeaning
    (some 300) 2 (by decide)⟩

/-- C9: `updateProgress` on word `w` leaves the entry (or absence) of every
other key unchanged. -/
theorem update_frames_other_words (m : UserProgress) (w : String) (c : Bool)
    (mode : QuizMode) (rt : Option Nat) (now : Nat) (w' : String)
    (h : w' ≠ w) :
    findRec (updateProgress m w c mode rt now) w' = findRec m w' := by
  cases hrec : findRec m w with
  | none =>
      simp only [updateProgress, hrec]
      exact findRec_setKey_ne _ _ _ _ h
  | some ex =>
      simp only [updateProgress, hrec]
      exact findRec_setKey_ne _ _ _ _ h

/-- Witness for C9 at a concrete input: reviewing `"a"` does not change the
(absent) entry of `"b"`. -/
theorem update_frames_other_words_witness :
    "b" ≠ "a" ∧
    findRec (updateProgress exMapA "a" true .flashcard none 3) "b" =
      findRec exMapA "b" :=
  ⟨by decide, update_frames_other_words exMapA "a" true .flashcard none 3 "b"
    (by decide)⟩

/-- C10: an incorrect first review creates the record at `srsLevel` 0 with
`nextReview = now + interval(0) = now + 0`, so the word still satisfies the
due condition and is returned by `getWordsForReview` whenever it is in the
catalog. -/
theorem incorrect_first_review_still_due (m : UserProgress) (w : String)
    (mode : QuizMode) (rt : Option Nat) (now : Nat)
    (habs : findRec m w = none) :
    ∃ p, findRec (updateProgress m w false mode rt now) w = some p ∧
      p.srsLevel = 0 ∧
      p.nextReview = some (now + (SRS_LEVELS 0).interval) ∧
      (SRS_LEVELS 0).interval = 0 ∧
      isDueForReview p.nextReview now = true ∧
      ∀ (data : VocabularyData) (word : WordWithCategory),
        word ∈ getAllWords data → word.pinyin = w →
        word ∈ getWordsForReview data (updateProgress m w false mode rt now)
          now := by
  have hfind : findRec (updateProgress m w false mode rt now) w =
      some { wordId := w, correctCount := 0, incorrectCount := 1,
             lastReviewed := now,
             nextReview := some (getNextReviewDate 0 now),
             srsLevel := 0, streak := 0,
             history := [{ date := now, correct := false, mode := mode,
                           responseTime := rt }] } := by
    simp only [updateProgress, habs]
    exact findRec_setKey_self _ _ _
  refine ⟨_, hfind, rfl, rfl, rfl, ?_, ?_⟩
  · simp [isDueForReview, getNextReviewDate, SRS_LEVELS]
  · intro data word hmem hpin
    unfold getWordsForReview
    rw [List.mem_filter]
    refine ⟨hmem, ?_⟩
    rw [hpin, hfind]
    simp [isDueForReview, getNextReviewDate, SRS_LEVELS]

/-- Witness for C10 at a concrete input: an incorrect first review of `"ni"`
at time 5 from the empty map. -/
theorem incorrect_first_review_still_due_witness :
    findRec [] "ni" = none ∧
    (∃ p, findRec (updateProgress [] "ni" false .flashcard none 5) "ni" =
        some p ∧
      p.srsLevel = 0 ∧
      p.nextReview = some (5 + (SRS_LEVELS 0).interval) ∧
      (SRS_LEVELS 0).interval = 0 ∧
      isDueForReview p.nextReview 5 = true ∧
      ∀ (data : VocabularyData) (word : WordWithCategory),
        word ∈ getAllWords data → word.pinyin = "ni" →
        word ∈ getWordsForReview data
          (updateProgress [] "ni" false .flashcard none 5) 5) :=
  ⟨rfl, incorrect_first_review_still_due [] "ni" .flashcard none 5 rfl⟩

/-- A concrete one-review sequence used by the example witnesses. -/
def exOps1 : List ReviewOp :=
  [{ word := "a", correct := true, mode := .flashcard, responseTime := none,
     now := 0 }]

/-- A concrete fifteen-review sequence on one word, used by the example
witnesses. -/
def exOps15 : List ReviewOp :=
  List.replicate 15
    { word := "b", correct := true, mode := .flashcard, responseTime := none,
      now := 0 }

/-- C2: in any state reachable from the empty map by a sequence of reviews,
every stored record has `srsLevel ≤ 5` (the lower bound 0 holds because
levels are naturals); and reviewing a word that already has a record — with
either outcome — leaves it with `srsLevel ≥ 1`. -/
theorem srs_level_bounds (ops : List ReviewOp) (m : UserProgress)
    (v w : String) (c : Bool) (mode : QuizMode) (rt : Option Nat) (now : Nat)
    (p ex : Progress)
    (hreach : findRec (applyReviews ops []) v = some p)
    (hex : findRec m w = some ex) :
    p.srsLevel ≤ 5 ∧
    ∃ p', findRec (updateProgress m w c mode rt now) w = some p' ∧
      1 ≤ p'.srsLevel := by
  constructor
  · exact (stateBounded_applyReviews ops [] stateBounded_nil v p hreach).1
  · simp only [updateProgress, hex]
    refine ⟨_, findRec_setKey_self _ _ _, ?_⟩
    cases c with
    | true => exact le_min (by omega) (by omega)
    | false => exact Nat.le_max_left 1 _

/-- Witness for C2 at a concrete input: the state after one correct review
of `"a"`, then an incorrect review of the existing record. -/
theorem srs_level_bounds_witness :
    findRec (applyReviews exOps1 []) "a" = some exProgA ∧
    findRec exMapA "a" = some exProgA ∧
    (exProgA.srsLevel ≤ 5 ∧
      ∃ p', findRec (updateProgress exMapA "a" false .flashcard none 9) "a" =
          some p' ∧ 1 ≤ p'.srsLevel) :=
  ⟨by decide, by decide,
    srs_level_bounds exOps1 exMapA "a" "a" false .flashcard none 9 exProgA
      exProgA (by decide) (by decide)⟩

/-- C5: in any state reachable from the empty map, every record's history
has length at most 10; and after 15 reviews of one word the history has
length exactly 10 and holds precisely the records of the 10 most recent
reviews, newest first (the reversal of the review order, truncated to 10). -/
theorem history_cap (ops ops15 : List ReviewOp) (v w : String) (p : Progress)
    (hreach : findRec (applyReviews ops []) v = some p)
    (h15 : ops15.length = 15)
    (hw : ∀ o ∈ ops15, o.word = w) :
    p.history.length ≤ 10 ∧
    ∃ q, findRec (applyReviews ops15 []) w = some q ∧
      q.history.length = 10 ∧
      q.history = List.take 10 ((ops15.map mkRecord).reverse) := by
  constructor
  · exact (stateBounded_applyReviews ops [] stateBounded_nil v p hreach).2
  · cases ops15 with
    | nil => simp at h15
    | cons o rest =>
        obtain ⟨q, hq, hhist⟩ := history_run rest o w [] hw
        have hseed : histSeed [] w = [] := rfl
        rw [hseed, List.append_nil] at hhist
        refine ⟨q, hq, ?_, hhist⟩
        rw [hhist, List.length_take, List.length_reverse, List.length_map,
          h15]
        decide

/-- Witness for C5 at a concrete input: a reachable one-review state, and
15 correct reviews of `"b"`. -/
theorem history_cap_witness :
    findRec (applyReviews exOps1 []) "a" = some exProgA ∧
    exOps15.length = 15 ∧
    (∀ o ∈ exOps15, o.word = "b") ∧
    (exProgA.history.length ≤ 10 ∧
      ∃ q, findRec (applyReviews exOps15 []) "b" = some q ∧
        q.history.length = 10 ∧
        q.history = List.take 10 ((exOps15.map mkRecord).reverse)) :=
  ⟨by decide, by decide, by decide,
    history_cap exOps1 exOps15 "a" "b" exProgA (by decide) (by decide)
      (by decide)⟩

/-- C8: `resetProgress` is constant — from any engine state (including the
fresh one with no stored blobs) it produces the empty progress map, the
default stats, and cleared storage — so two consecutive calls produce the
same empty state both times. -/
theorem reset_idempotent (s : EngineState) :
    resetProgress (resetProgress s) = resetProgress s ∧
    resetProgress s =
      { progress := [], stats := defaultStats, storedProgress := none,
        storedStats := none } :=
  ⟨rfl, rfl⟩

theorem length_flatMap_eq_sum {α β : Type} (l : List α) (f : α → List β) :
    (l.flatMap f).length = (l.map fun a => (f a).length).sum := by
  induction l with
  | nil => rfl
  | cons b bs ih => simp [List.flatMap_cons, ih]

theorem countP_flatMap_eq_sum {α β : Type} (l : List α) (f : α → List β)
    (p : β → Bool) :
    (l.flatMap f).countP p = (l.map fun a => (f a).countP p).sum := by
  induction l with
  | nil => rfl
  | cons b bs ih => simp [List.flatMap_cons, List.countP_append, ih]

/-- C6: the accuracy reported by `getStatistics` equals the spec's formula —
the rounding of `100 * correctHistoryEntries / totalHistoryEntries` over
every `ReviewRecord` in every record's history — and is 0 (totally, with no
division by zero) whenever no history entry exists anywhere. -/
theorem accuracy_matches_spec (data : VocabularyData) (m : UserProgress)
    (stats : UserStats) (now : Nat) :
    (getStatistics data m stats now).accuracy = specAccuracy m ∧
    (specTotalHistoryEntries m = 0 →
      (getStatistics data m stats now).accuracy = 0) := by
  have htotal : specTotalHistoryEntries m =
      (m.map fun kv => kv.2.history.length).sum := by
    rw [specTotalHistoryEntries, allHistoryRecords, length_flatMap_eq_sum,
      List.map_map]
    rfl
  have hcorrect : specCorrectHistoryEntries m =
      (m.map fun kv => kv.2.history.countP fun h => h.correct).sum := by
    rw [specCorrectHistoryEntries, allHistoryRecords,
      ← List.countP_eq_length_filter, countP_flatMap_eq_sum, List.map_map]
    rfl
  have haccuracy : (getStatistics data m stats now).accuracy = specAccuracy m := by
    simp only [getStatistics, specAccuracy, htotal, hcorrect]
    by_cases hT : (m.map fun kv => kv.2.history.length).sum = 0
    · simp [hT]
    · simp [hT, Nat.pos_of_ne_zero hT, Nat.mul_comm]
  refine ⟨haccuracy, fun h0 => ?_⟩
  rw [haccuracy, specAccuracy, if_pos h0]

theorem contains_eq_false_of_not_mem {a : Nat} {l : List Nat} (h : ¬a ∈ l) :
    l.contains a = false := by
  simpa using h

/-- When the day is new and the log is under the cap, `updateDailyStats`
appends the day. -/
theorem updateDailyStats_studyDays (s : UserStats) (d : Nat)
    (h : s.studyDays.contains d = false) (hlen : s.studyDays.length ≤ 364) :
    (updateDailyStats s d).studyDays = s.studyDays ++ [d] := by
  have hz : (s.studyDays ++ [d]).length - 365 = 0 := by
    simp only [List.length_append, List.length_singleton]
    omega
  simp only [updateDailyStats, h, Bool.false_eq_true, if_false, lastN, hz,
    List.drop_zero]

/-- The streak stored by `updateDailyStats` is the walk over the updated
day log sorted descending. -/
theorem updateDailyStats_currentStreak (s : UserStats) (d : Nat) :
    (updateDailyStats s d).currentStreak =
      currentStreakOf (sortDesc ((updateDailyStats s d).studyDays)) := rfl

/-- C4: the stored `currentStreak` is exactly the recomputation — sort the
distinct study days descending, start at 1, extend while adjacent days
differ by exactly 1 — and in particular study events on days `D`, `D+1`,
`D+2` yield streak 3, while `D`, `D+1`, `D+4` yield streak 1 after the
`D+4` event. -/
theorem daily_streak_recompute (s : UserStats) (d D : Nat) :
    (updateDailyStats s d).currentStreak =
      currentStreakOf (sortDesc ((updateDailyStats s d).studyDays)) ∧
    (updateDailyStats (updateDailyStats (updateDailyStats defaultStats D)
        (D + 1)) (D + 2)).currentStreak = 3 ∧
    (updateDailyStats (updateDailyStats (updateDailyStats defaultStats D)
        (D + 1)) (D + 4)).currentStreak = 1 := by
  have hs1 : (updateDailyStats defaultStats D).studyDays = [D] := by
    rw [updateDailyStats_studyDays defaultStats D rfl (by simp [defaultStats])]
    simp [defaultStats]
  have hs2 : (updateDailyStats (updateDailyStats defaultStats D)
      (D + 1)).studyDays = [D, D + 1] := by
    rw [updateDailyStats_studyDays _ _
      (by rw [hs1]; exact contains_eq_false_of_not_mem (by simp))
      (by rw [hs1]; simp)]
    rw [hs1]
    rfl
  refine ⟨rfl, ?_, ?_⟩
  · have hs3 : (updateDailyStats (updateDailyStats (updateDailyStats
        defaultStats D) (D + 1)) (D + 2)).studyDays = [D, D + 1, D + 2] := by
      rw [updateDailyStats_studyDays _ _
        (by rw [hs2]; exact contains_eq_false_of_not_mem (by simp))
        (by rw [hs2]; simp)]
      rw [hs2]
      rfl
    rw [updateDailyStats_currentStreak, hs3]
    have hsort : sortDesc [D, D + 1, D + 2] = [D + 2, D + 1, D] := by
      show insertDesc D (insertDesc (D + 1) (insertDesc (D + 2) [])) =
        [D + 2, D + 1, D]
      simp only [insertDesc]
      rw [if_neg (show ¬D + 2 ≤ D + 1 by omega)]
      simp only [insertDesc]
      rw [if_neg (show ¬D + 2 ≤ D by omega),
        if_neg (show ¬D + 1 ≤ D by omega)]
    rw [hsort]
    simp only [currentStreakOf, streakCount]
    rw [if_pos (show D + 2 - (D + 1) = 1 by omega),
      if_pos (show D + 1 - D = 1 by omega)]
  · have hs3 : (updateDailyStats (updateDailyStats (updateDailyStats
        defaultStats D) (D + 1)) (D + 4)).studyDays = [D, D + 1, D + 4] := by
      rw [updateDailyStats_studyDays _ _
        (by rw [hs2]; exact contains_eq_false_of_not_mem (by simp))
        (by rw [hs2]; simp)]
      rw [hs2]
      rfl
    rw [updateDailyStats_currentStreak, hs3]
    have hsort : sortDesc [D, D + 1, D + 4] = [D + 4, D + 1, D] := by
      show insertDesc D (insertDesc (D + 1) (insertDesc (D + 4) [])) =
        [D + 4, D + 1, D]
      simp only [insertDesc]
      rw [if_neg (show ¬D + 4 ≤ D + 1 by omega)]
      simp only [insertDesc]
      rw [if_neg (show ¬D + 4 ≤ D by omega),
        if_neg (show ¬D + 1 ≤ D by omega)]
    rw [hsort]
    simp only [currentStreakOf, streakCount]
    rw [if_neg (show ¬D + 4 - (D + 1) = 1 by omega)]

/-- Membership in a `getWordsBySRSLevel` bucket, unfolded. -/
theorem mem_byLevel_iff (data : VocabularyData) (m : UserProgress)
    (level : Nat) (word : WordWithCategory) :
    word ∈ getWordsBySRSLevel data m level ↔
      word ∈ getAllWords data ∧
        (if level = 0 then (findRec m word.pinyin).isNone
         else
           match findRec m word.pinyin with
           | some p => p.srsLevel == level
           | none => false) = true := by
  unfold getWordsBySRSLevel
  exact List.mem_filter

/-- The partition property claimed for `getWordsBySRSLevel` (C3 as stated):
every catalog word lies in exactly one level bucket in `[0,5]`; words with
no record lie in bucket 0 and recorded words in the bucket of their
record's `srsLevel`. -/
def byLevelPartitionClaim (data : VocabularyData) (m : UserProgress) : Prop :=
  ∀ word ∈ getAllWords data,
    (∃! l, l ≤ 5 ∧ word ∈ getWordsBySRSLevel data m l) ∧
    (findRec m word.pinyin = none → word ∈ getWordsBySRSLevel data m 0) ∧
    (∀ p, findRec m word.pinyin = some p →
      word ∈ getWordsBySRSLevel data m p.srsLevel)

/-- A one-word catalog used for the C3 counterexample. -/
def cWord : Word :=
  { pinyin := "ni", characters := "x", meaning := "you", notes := none,
    components := none }

/-- The catalog containing only `cWord`. -/
def cData : VocabularyData := [("greetings", [cWord])]

/-- `cWord` as a catalog entry with its category. -/
def cWordWC : WordWithCategory := { toWord := cWord, category := "greetings" }

/-- A reachable progress state: one incorrect first review of `"ni"` at
time 0, leaving its record at `srsLevel` 0. -/
def cMap : UserProgress := updateProgress [] "ni" false .flashcard none 0

/-- The record stored in `cMap` for `"ni"`. -/
def cProg : Progress :=
  { wordId := "ni", correctCount := 0, incorrectCount := 1, lastReviewed := 0,
    nextReview := some 0, srsLevel := 0, streak := 0,
    history := [{ date := 0, correct := false, mode := .flashcard,
                  responseTime := none }] }

/-- C3 is false as stated: in the reachable state `cMap` the catalog word
`"ni"` has a record with `srsLevel` 0, and `getWordsBySRSLevel` places it in
no bucket at all — its level-0 branch keeps only words with no record, so
the buckets do not partition the catalog. -/
theorem byLevel_partition_counterexample :
    cWordWC ∈ getAllWords cData ∧
    (∀ l, l ≤ 5 → cWordWC ∉ getWordsBySRSLevel cData cMap l) ∧
    ¬byLevelPartitionClaim cData cMap := by
  refine ⟨by decide, ?_, ?_⟩
  · intro l hl
    interval_cases l <;> decide
  · intro h
    obtain ⟨-, -, hsome⟩ := h cWordWC (by decide)
    have hin := hsome cProg (by decide)
    have hlevel : cProg.srsLevel = 0 := rfl
    rw [hlevel] at hin
    exact absurd hin (by decide)

/-- C3 (amended): `getWordsBySRSLevel` partitions the catalog words whose
record (if any) has `srsLevel ≥ 1`: a word with no record lies in bucket 0
and in no other bucket; a word whose record has `srsLevel ≥ 1` lies in the
bucket of its record's level and in no other; but a word whose record has
`srsLevel = 0` (reachable by an incorrect first review) lies in no bucket. -/
theorem byLevel_partition_amended (data : VocabularyData) (m : UserProgress)
    (word : WordWithCategory) (hmem : word ∈ getAllWords data) :
    (findRec m word.pinyin = none →
      (word ∈ getWordsBySRSLevel data m 0 ∧
        ∀ l, l ≠ 0 → word ∉ getWordsBySRSLevel data m l)) ∧
    (∀ p, findRec m word.pinyin = some p →
      ((1 ≤ p.srsLevel →
          (word ∈ getWordsBySRSLevel data m p.srsLevel ∧
            ∀ l, l ≠ p.srsLevel → word ∉ getWordsBySRSLevel data m l)) ∧
        (p.srsLevel = 0 → ∀ l, word ∉ getWordsBySRSLevel data m l))) := by
  constructor
  · intro hnone
    constructor
    · rw [mem_byLevel_iff]
      exact ⟨hmem, by simp [hnone]⟩
    · intro l hl
      rw [mem_byLevel_iff]
      rintro ⟨-, hpred⟩
      rw [if_neg hl, hnone] at hpred
      simp at hpred
  · intro p hp
    constructor
    · intro h1
      have hl0 : p.srsLevel ≠ 0 := by omega
      constructor
      · rw [mem_byLevel_iff]
        refine ⟨hmem, ?_⟩
        rw [if_neg hl0, hp]
        simp
      · intro l hl
        rw [mem_byLevel_iff]
        rintro ⟨-, hpred⟩
        by_cases hl0' : l = 0
        · subst hl0'
          rw [if_pos rfl, hp] at hpred
          simp at hpred
        · rw [if_neg hl0', hp] at hpred
          simp only [beq_iff_eq] at hpred
          exact hl hpred.symm
    · intro h0 l
      rw [mem_byLevel_iff]
      rintro ⟨-, hpred⟩
      by_cases hl0 : l = 0
      · subst hl0
        rw [if_pos rfl, hp] at hpred
        simp at hpred
      · rw [if_neg hl0, hp] at hpred
        simp only [beq_iff_eq] at hpred
        rw [h0] at hpred
        exact hl0 hpred.symm

/-- Witness for the amended C3 at a concrete input: the one-word catalog
with the empty progress map. -/
theorem byLevel_partition_amended_witness :
    cWordWC ∈ getAllWords cData ∧
    ((findRec [] cWordWC.pinyin = none →
      (cWordWC ∈ getWordsBySRSLevel cData [] 0 ∧
        ∀ l, l ≠ 0 → cWordWC ∉ getWordsBySRSLevel cData [] l)) ∧
    (∀ p, findRec [] cWordWC.pinyin = some p →
      ((1 ≤ p.srsLevel →
          (cWordWC ∈ getWordsBySRSLevel cData [] p.srsLevel ∧
            ∀ l, l ≠ p.srsLevel → cWordWC ∉ getWordsBySRSLevel cData [] l)) ∧
        (p.srsLevel = 0 → ∀ l, cWordWC ∉ getWordsBySRSLevel cData [] l)))) :=
  ⟨by decide, byLevel_partition_amended cData [] cWordWC (by decide)⟩

end MyMandarin
